import Mathlib

/-!
Verification of the FarmVerse serial frame protocol engine
(server/sensor_data_reciver) against its specification.

The development shallowly embeds the Python sources as Lean functions:
byte buffers are lists of naturals (each byte written mod 256 where the
source guarantees it), the asyncio protocol objects become explicit state
records, and wall-clock / monotonic times are explicit rational-number
parameters.  Logging, debug flags and I/O failure branches have no effect
on the modelled state and are dropped; every branch of the sources that
can change the modelled state is translated.
-/

namespace FarmVerse

/-! ## Protocol constants (protocol/constants.py) -/

/-- Start marker bytes fa ce aa bb. -/
def START_MARKER : List Nat := [0xfa, 0xce, 0xaa, 0xbb]

/-- End marker bytes cd ef 56 78. -/
def END_MARKER : List Nat := [0xcd, 0xef, 0x56, 0x78]

def MAC_ADDRESS_LENGTH : Nat := 6

def FRAME_TYPE_LENGTH : Nat := 1

def SEQUENCE_NUM_LENGTH : Nat := 4

def LENGTH_FIELD_BYTES : Nat := 4

def CHECKSUM_LENGTH : Nat := 4

def FRAME_TYPE_HASH : Nat := 1

def FRAME_TYPE_DATA : Nat := 2

def FRAME_TYPE_EOF : Nat := 3

/-! ## Configuration (config/settings.py), environment-independent fields -/

structure Config where
  MAX_BUFFER_SIZE : Nat := 10 * 1024 * 1024
  MAX_DATA_LEN : Nat := 512
  DEFAULT_SLEEP_DURATION_S : Nat := 60
  LOW_VOLTAGE_THRESHOLD_PERCENT : Nat := 8
  LONG_SLEEP_DURATION_S : Nat := 3600 * 9
  MEDIUM_SLEEP_DURATION_S : Nat := 3600
  NORMAL_SLEEP_DURATION_S : Nat := 600
deriving DecidableEq

/-- The global configuration instance with its default values. -/
def config : Config := {}

/-! ## Byte utilities -/

/-- Little-endian value of a byte list, as in int.from_bytes(_, "little"). -/
def le32 : List Nat → Nat
  | [] => 0
  | b :: t => b % 256 + 256 * le32 t

/-- Little-endian 4-byte encoding of a 32-bit value. -/
def le32enc (n : Nat) : List Nat :=
  [n % 256, n / 256 % 256, n / 256 ^ 2 % 256, n / 256 ^ 3 % 256]

theorem le32enc_length (n : Nat) : (le32enc n).length = 4 := rfl

theorem le32_le32enc (n : Nat) (h : n < 2 ^ 32) : le32 (le32enc n) = n := by
  simp only [le32enc, le32]
  omega

/-- Lowercase hex digits. -/
def hexDigit (n : Nat) : String :=
  ["0", "1", "2", "3", "4", "5", "6", "7", "8", "9",
   "a", "b", "c", "d", "e", "f"].getD n "0"

/-- Two-digit lowercase hex rendering of one byte, as in f-string 02x. -/
def hexByte (b : Nat) : String := hexDigit (b % 256 / 16) ++ hexDigit (b % 16)

/-- Colon-joined lowercase hex rendering of the MAC bytes
(frame_parser.py line 28). -/
def macStr (mac : List Nat) : String := String.intercalate ":" (mac.map hexByte)

/-! ## FrameParser.parse_header (protocol/frame_parser.py) -/

/-- The two exception classes parse_header can raise: ValueError for a
buffer too short to hold the header, FrameSyncError (a ValueError
subclass) for implausible header fields. -/
inductive HeaderErr where
  | valueError : HeaderErr
  | frameSync : HeaderErr
deriving DecidableEq, Repr

/-- Shallow embedding of FrameParser.parse_header.  Reads the fixed
19-byte header at start_pos and either raises or returns
(sender_mac, frame_type, seq_num, data_len). -/
def parse_header (buffer : List Nat) (start_pos : Nat) :
    Except HeaderErr (String × Nat × Nat × Nat) :=
  let header_start := start_pos + START_MARKER.length
  let required_len := header_start + MAC_ADDRESS_LENGTH + FRAME_TYPE_LENGTH +
    SEQUENCE_NUM_LENGTH + LENGTH_FIELD_BYTES
  if buffer.length < required_len then .error .valueError
  else
    let mac_bytes := (buffer.drop header_start).take MAC_ADDRESS_LENGTH
    let sender_mac := macStr mac_bytes
    let frame_type_pos := header_start + MAC_ADDRESS_LENGTH
    let frame_type := (buffer.drop frame_type_pos).headD 0
    let seq_num_pos := frame_type_pos + FRAME_TYPE_LENGTH
    let seq_num := le32 ((buffer.drop seq_num_pos).take SEQUENCE_NUM_LENGTH)
    let data_len_pos := seq_num_pos + SEQUENCE_NUM_LENGTH
    let data_len := le32 ((buffer.drop data_len_pos).take LENGTH_FIELD_BYTES)
    if data_len > 512 then .error .frameSync
    else if seq_num > 1000000 then .error .frameSync
    else .ok (sender_mac, frame_type, seq_num, data_len)

theorem headD_take_succ {α : Type} (d : α) (n : Nat) (l : List α) :
    (l.take (n + 1)).headD d = l.headD d := by
  cases l <;> simp

/-- parse_header depends only on the bytes at indices below start_pos + 19:
truncating the buffer there never changes the outcome. -/
theorem parse_header_take (buffer : List Nat) (p : Nat) :
    parse_header (buffer.take (p + 19)) p = parse_header buffer p := by
  have hmac : ((buffer.take (p + 19)).drop (p + 4)).take 6 =
      (buffer.drop (p + 4)).take 6 := by
    rw [List.drop_take, List.take_take]
    congr 1
    omega
  have hseq : ((buffer.take (p + 19)).drop (p + 11)).take 4 =
      (buffer.drop (p + 11)).take 4 := by
    rw [List.drop_take, List.take_take]
    congr 1
    omega
  have hlen : ((buffer.take (p + 19)).drop (p + 15)).take 4 =
      (buffer.drop (p + 15)).take 4 := by
    rw [List.drop_take, List.take_take]
    congr 1
    omega
  have hty : ((buffer.take (p + 19)).drop (p + 10)).headD 0 =
      (buffer.drop (p + 10)).headD 0 := by
    rw [List.drop_take]
    have h9 : p + 19 - (p + 10) = 8 + 1 := by omega
    rw [h9, headD_take_succ]
  simp only [parse_header, START_MARKER, List.length_cons, List.length_nil,
    MAC_ADDRESS_LENGTH, FRAME_TYPE_LENGTH, SEQUENCE_NUM_LENGTH,
    LENGTH_FIELD_BYTES, List.length_take]
  rw [hmac, hseq, hlen, hty]
  split_ifs <;> first | rfl | omega

/--
C10: FrameParser.parse_header never reads out of bounds.  It raises
ValueError exactly when the buffer is shorter than start_pos + 19; when
at least start_pos + 19 bytes are present it returns a
(mac, type, seq, len) tuple or raises FrameSyncError; and in every case
the outcome depends only on the bytes at indices below start_pos + 19.
-/
theorem c10_parse_header_safety (buffer : List Nat) (p : Nat) :
    (buffer.length < p + 19 → parse_header buffer p = .error .valueError) ∧
    (p + 19 ≤ buffer.length →
      (∃ m t s d, parse_header buffer p = .ok (m, t, s, d)) ∨
        parse_header buffer p = .error .frameSync) ∧
    parse_header (buffer.take (p + 19)) p = parse_header buffer p := by
  refine ⟨?_, ?_, parse_header_take buffer p⟩
  · intro h
    simp only [parse_header, START_MARKER, List.length_cons, List.length_nil,
      MAC_ADDRESS_LENGTH, FRAME_TYPE_LENGTH, SEQUENCE_NUM_LENGTH,
      LENGTH_FIELD_BYTES]
    split_ifs <;> rfl
  · intro h
    simp only [parse_header, START_MARKER, List.length_cons, List.length_nil,
      MAC_ADDRESS_LENGTH, FRAME_TYPE_LENGTH, SEQUENCE_NUM_LENGTH,
      LENGTH_FIELD_BYTES]
    split_ifs with h1 h2 h3
    · omega
    · exact Or.inr rfl
    · exact Or.inr rfl
    · exact Or.inl ⟨_, _, _, _, rfl⟩

/-- Witness for C10 at a concrete buffer and offset. -/
theorem c10_parse_header_safety_witness :
    parse_header [0, 1] 0 = .error .valueError ∧
      ((∃ m t s d, parse_header
          [0xfa, 0xce, 0xaa, 0xbb, 1, 2, 3, 4, 5, 6, 2,
           1, 0, 0, 0, 0, 0, 0, 0] 0 = .ok (m, t, s, d)) ∨
        parse_header
          [0xfa, 0xce, 0xaa, 0xbb, 1, 2, 3, 4, 5, 6, 2,
           1, 0, 0, 0, 0, 0, 0, 0] 0 = .error .frameSync) :=
  ⟨(c10_parse_header_safety [0, 1] 0).1 (by decide),
   (c10_parse_header_safety
      [0xfa, 0xce, 0xaa, 0xbb, 1, 2, 3, 4, 5, 6, 2,
       1, 0, 0, 0, 0, 0, 0, 0] 0).2.1 (by decide)⟩

/-! ## StreamingSerialProtocol._process_streaming_buffer
(protocol/streaming_handler.py lines 108-228)

The while-loop body is embedded as a step function on the byte buffer.
Time is not advanced inside a processing pass, so the frame-timeout check
at the top of each iteration (lines 111-112, a no-op unless
time.monotonic advances) has no effect and frame_start_time bookkeeping
is dropped.  Logging branches are dropped. -/

/-- A parsed frame as handed to _process_frame_by_type. -/
structure Frame where
  sender_mac : String
  frame_type : Nat
  seq_num : Nat
  payload : List Nat
deriving DecidableEq, Repr

/-- Result of one iteration of the while loop: stop (break, keeping the
given buffer), skip (continue with the given buffer), or emit a frame
and continue with the given buffer. -/
inductive StepR where
  | stop (buf : List Nat)
  | skip (buf : List Nat)
  | emit (f : Frame) (buf : List Nat)
deriving DecidableEq, Repr

/-- bytearray.find(START_MARKER): index of the first occurrence of the
4-byte start marker, if any. -/
def findStart : List Nat → Option Nat
  | [] => none
  | b :: t =>
    if (b :: t).take 4 = START_MARKER then some 0
    else (findStart t).map (· + 1)

/-- bytearray.find(START_MARKER, i): first occurrence at index ≥ i. -/
def findStartFrom (buf : List Nat) (i : Nat) : Option Nat :=
  (findStart (buf.drop i)).map (· + i)

/-- StreamingSerialProtocol._handle_frame_error: drop up to the next
start marker at index ≥ 1, or clear the buffer. -/
def handle_frame_error (buf : List Nat) : List Nat :=
  match findStartFrom buf 1 with
  | some j => buf.drop j
  | none => []

/-- The fixed 19-byte header length. -/
def header_length : Nat :=
  START_MARKER.length + MAC_ADDRESS_LENGTH + FRAME_TYPE_LENGTH +
    SEQUENCE_NUM_LENGTH + LENGTH_FIELD_BYTES

theorem START_MARKER_length : START_MARKER.length = 4 := rfl

theorem END_MARKER_length : END_MARKER.length = 4 := rfl

theorem header_length_eq : header_length = 19 := rfl

/-- One iteration of the _process_streaming_buffer while loop. -/
def processStep (buf : List Nat) : StepR :=
  match findStart buf with
  | none =>
    .stop (if START_MARKER.length ≤ buf.length
      then buf.drop (buf.length - (START_MARKER.length - 1)) else buf)
  | some start_index =>
    if 0 < start_index then .skip (buf.drop start_index)
    else if buf.length < header_length then .stop buf
    else
      match parse_header buf 0 with
      | .error _ => .skip (handle_frame_error buf)
      | .ok (sender_mac, frame_type, seq_num, data_len) =>
        if data_len > config.MAX_DATA_LEN ∨
            ((buf.drop START_MARKER.length).take MAC_ADDRESS_LENGTH).length ≠
              MAC_ADDRESS_LENGTH then
          .skip (handle_frame_error buf)
        else
          let frame_end_index := header_length + data_len + CHECKSUM_LENGTH +
            END_MARKER.length
          if buf.length < frame_end_index then .stop buf
          else
            let chunk_data := (buf.drop header_length).take data_len
            let footer := (buf.drop (header_length + data_len +
              CHECKSUM_LENGTH)).take END_MARKER.length
            if footer = END_MARKER then
              .emit ⟨sender_mac, frame_type, seq_num, chunk_data⟩
                (buf.drop frame_end_index)
            else .skip (handle_frame_error buf)

/-- The while loop, with fuel (one unit per iteration; the buffer
strictly shrinks on skip and emit, so length + 1 units suffice). -/
def processLoop : Nat → List Nat → List Frame × List Nat
  | 0, buf => ([], buf)
  | fuel + 1, buf =>
    match processStep buf with
    | .stop b => ([], b)
    | .skip b => processLoop fuel b
    | .emit f b =>
      let r := processLoop fuel b
      (f :: r.1, r.2)

/-- Run _process_streaming_buffer to quiescence: the list of frames
dispatched to _process_frame_by_type, and the residual buffer. -/
def processBuffer (buf : List Nat) : List Frame × List Nat :=
  processLoop (buf.length + 1) buf

/-- data_received: append the chunk to the buffer and process. -/
def feed (st : List Frame × List Nat) (chunk : List Nat) :
    List Frame × List Nat :=
  let r := processBuffer (st.2 ++ chunk)
  (st.1 ++ r.1, r.2)

/-- Feed a sequence of chunks into a fresh protocol instance. -/
def feedAll (chunks : List (List Nat)) : List Frame × List Nat :=
  chunks.foldl feed ([], [])

/-! ### Basic findStart facts -/

theorem findStart_of_take4 (buf : List Nat) (h : buf.take 4 = START_MARKER) :
    findStart buf = some 0 := by
  cases buf with
  | nil => simp [START_MARKER] at h
  | cons b t => simp [findStart, h]

theorem findStart_short : ∀ buf : List Nat, buf.length < 4 → findStart buf = none := by
  intro buf
  induction buf with
  | nil => intro _; rfl
  | cons b t ih =>
    intro h
    simp only [List.length_cons] at h
    have hne : (b :: t).take 4 ≠ START_MARKER := by
      intro he
      have hlen := congrArg List.length he
      simp only [List.length_take, List.length_cons, START_MARKER,
        List.length_nil] at hlen
      omega
    simp only [findStart]
    rw [if_neg hne, ih (by omega)]
    rfl

theorem findStart_some_take : ∀ (buf : List Nat) (i : Nat),
    findStart buf = some i → (buf.drop i).take 4 = START_MARKER := by
  intro buf
  induction buf with
  | nil => intro i h; simp [findStart] at h
  | cons b t ih =>
    intro i h
    simp only [findStart] at h
    by_cases hc : (b :: t).take 4 = START_MARKER
    · rw [if_pos hc] at h
      cases h
      simpa using hc
    · rw [if_neg hc] at h
      cases hj : findStart t with
      | none => rw [hj] at h; simp at h
      | some j =>
        rw [hj] at h
        have h2 : j + 1 = i := by simpa using h
        subst h2
        simpa using ih j hj

theorem findStart_some_le (buf : List Nat) (i : Nat)
    (h : findStart buf = some i) : i + 4 ≤ buf.length := by
  have ht := findStart_some_take buf i h
  have hlen := congrArg List.length ht
  simp only [List.length_take, List.length_drop, START_MARKER,
    List.length_cons, List.length_nil] at hlen
  omega

/-! ### The buffer strictly shrinks on skip and emit -/

theorem handle_frame_error_length (buf : List Nat) (h : 0 < buf.length) :
    (handle_frame_error buf).length < buf.length := by
  cases hj : findStart (buf.drop 1) with
  | none =>
    have he : handle_frame_error buf = [] := by
      unfold handle_frame_error findStartFrom
      rw [hj]
      rfl
    rw [he]
    simpa using h
  | some j =>
    have he : handle_frame_error buf = buf.drop (j + 1) := by
      unfold handle_frame_error findStartFrom
      rw [hj]
      rfl
    rw [he]
    simp only [List.length_drop]
    omega

theorem processStep_skip_length (buf b : List Nat)
    (h : processStep buf = .skip b) : b.length < buf.length := by
  unfold processStep at h
  cases hfs : findStart buf with
  | none =>
    rw [hfs] at h
    try simp only at h
    exact absurd h (by simp)
  | some i =>
    rw [hfs] at h
    try simp only at h
    have hle := findStart_some_le buf i hfs
    by_cases hi : 0 < i
    · rw [if_pos hi] at h
      cases h
      simp only [List.length_drop]
      omega
    · rw [if_neg hi] at h
      by_cases hl : buf.length < header_length
      · rw [if_pos hl] at h
        exact absurd h (by simp)
      · rw [if_neg hl] at h
        have hpos : 0 < buf.length := by
          simp only [header_length, START_MARKER, MAC_ADDRESS_LENGTH,
            FRAME_TYPE_LENGTH, SEQUENCE_NUM_LENGTH, LENGTH_FIELD_BYTES,
            List.length_cons, List.length_nil] at hl
          omega
        cases hp : parse_header buf 0 with
        | error e =>
          rw [hp] at h
          try simp only at h
          cases h
          exact handle_frame_error_length buf hpos
        | ok r =>
          obtain ⟨m, t, s, d⟩ := r
          rw [hp] at h
          try simp only at h
          split_ifs at h <;> cases h <;>
            exact handle_frame_error_length buf hpos

theorem processStep_emit_length (buf : List Nat) (f : Frame) (b : List Nat)
    (h : processStep buf = .emit f b) : b.length < buf.length := by
  unfold processStep at h
  cases hfs : findStart buf with
  | none =>
    rw [hfs] at h
    try simp only at h
    exact absurd h (by simp)
  | some i =>
    rw [hfs] at h
    try simp only at h
    by_cases hi : 0 < i
    · rw [if_pos hi] at h
      exact absurd h (by simp)
    · rw [if_neg hi] at h
      by_cases hl : buf.length < header_length
      · rw [if_pos hl] at h
        exact absurd h (by simp)
      · rw [if_neg hl] at h
        cases hp : parse_header buf 0 with
        | error e =>
          rw [hp] at h
          try simp only at h
          exact absurd h (by simp)
        | ok r =>
          obtain ⟨m, t, s, d⟩ := r
          rw [hp] at h
          try simp only at h
          split_ifs at h with h1 h2 h3
          all_goals cases h
          simp only [List.length_drop, header_length, START_MARKER,
            END_MARKER, CHECKSUM_LENGTH, MAC_ADDRESS_LENGTH,
            FRAME_TYPE_LENGTH, SEQUENCE_NUM_LENGTH, LENGTH_FIELD_BYTES,
            List.length_cons, List.length_nil] at h2 ⊢
          omega

/-! ### Fuel does not matter once it exceeds the buffer length -/

theorem processLoop_fuel : ∀ (n : Nat) (buf : List Nat) (f1 f2 : Nat),
    buf.length ≤ n → n < f1 → n < f2 →
    processLoop f1 buf = processLoop f2 buf := by
  intro n
  induction n with
  | zero =>
    intro buf f1 f2 hb h1 h2
    have hbuf : buf = [] := List.length_eq_zero.mp (Nat.le_zero.mp hb)
    subst hbuf
    cases f1 with
    | zero => omega
    | succ a =>
      cases f2 with
      | zero => omega
      | succ c =>
        simp only [processLoop]
        cases hs : processStep [] with
        | stop b => simp only
        | skip b =>
          have := processStep_skip_length [] b hs
          simp at this
        | emit f b =>
          have := processStep_emit_length [] f b hs
          simp at this
  | succ n ih =>
    intro buf f1 f2 hb h1 h2
    cases f1 with
    | zero => omega
    | succ a =>
      cases f2 with
      | zero => omega
      | succ c =>
        simp only [processLoop]
        cases hs : processStep buf with
        | stop b => simp only
        | skip b =>
          simp only
          have hlt := processStep_skip_length buf b hs
          exact ih b a c (by omega) (by omega) (by omega)
        | emit f b =>
          simp only
          have hlt := processStep_emit_length buf f b hs
          rw [ih b a c (by omega) (by omega) (by omega)]

theorem processBuffer_stop (buf b : List Nat) (h : processStep buf = .stop b) :
    processBuffer buf = ([], b) := by
  unfold processBuffer
  simp only [processLoop, h]

theorem processBuffer_skip (buf b : List Nat) (h : processStep buf = .skip b) :
    processBuffer buf = processBuffer b := by
  have hlt := processStep_skip_length buf b h
  have h1 : processBuffer buf = processLoop buf.length b := by
    unfold processBuffer
    simp only [processLoop, h]
  rw [h1]
  exact processLoop_fuel b.length b buf.length (b.length + 1) (le_refl _)
    (by omega) (by omega)

theorem processBuffer_emit (buf : List Nat) (f : Frame) (b : List Nat)
    (h : processStep buf = .emit f b) :
    processBuffer buf = (f :: (processBuffer b).1, (processBuffer b).2) := by
  have hlt := processStep_emit_length buf f b h
  have h1 : processBuffer buf =
      (f :: (processLoop buf.length b).1, (processLoop buf.length b).2) := by
    unfold processBuffer
    simp only [processLoop, h]
  rw [h1, processLoop_fuel b.length b buf.length (b.length + 1) (le_refl _)
    (by omega) (by omega)]
  rfl

/-! ### Frames on the wire

A frame as laid out on the wire by the sending firmware:
START(4) SID(6) TYPE(1) SEQ(4,LE) LEN(4,LE) PAYLOAD(LEN) CKSUM(4) END(4). -/

structure WireFrame where
  sid : List Nat
  ftype : Nat
  seq : Nat
  payload : List Nat
  cksum : List Nat

/-- A frame whose header fields pass the receiver checks: 6 MAC bytes,
4 checksum bytes, LEN ≤ 512 and SEQ ≤ 1,000,000. -/
def WireFrame.Valid (w : WireFrame) : Prop :=
  w.sid.length = 6 ∧ w.cksum.length = 4 ∧ w.payload.length ≤ 512 ∧
    w.seq ≤ 1000000

/-- Wire encoding of a frame. -/
def encodeFrame (w : WireFrame) : List Nat :=
  START_MARKER ++ (w.sid ++ ([w.ftype] ++ (le32enc w.seq ++
    (le32enc w.payload.length ++ (w.payload ++ (w.cksum ++ END_MARKER))))))

/-- The in-memory frame the dispatcher receives for a wire frame. -/
def frameOf (w : WireFrame) : Frame :=
  ⟨macStr w.sid, w.ftype, w.seq, w.payload⟩

/-- Concatenated encoding of a list of frames. -/
def encodeAll (ws : List WireFrame) : List Nat :=
  (ws.map encodeFrame).flatten

theorem take_append_eq {α : Type} (a b : List α) (n : Nat) (h : a.length = n) :
    (a ++ b).take n = a := by
  subst h
  exact List.take_left a b

theorem drop_append_eq {α : Type} (a b : List α) (n : Nat) (h : a.length = n) :
    (a ++ b).drop n = b := by
  subst h
  exact List.drop_left a b

theorem drop_add {α : Type} (l : List α) (m n : Nat) :
    l.drop (m + n) = (l.drop m).drop n := by
  rw [List.drop_drop]

theorem encodeFrame_append (w : WireFrame) (rest : List Nat) :
    encodeFrame w ++ rest =
      START_MARKER ++ (w.sid ++ ([w.ftype] ++ (le32enc w.seq ++
        (le32enc w.payload.length ++ (w.payload ++ (w.cksum ++
          (END_MARKER ++ rest))))))) := by
  simp [encodeFrame, List.append_assoc]

theorem encodeFrame_length (w : WireFrame) (h6 : w.sid.length = 6)
    (h4 : w.cksum.length = 4) :
    (encodeFrame w).length = 27 + w.payload.length := by
  simp [encodeFrame, START_MARKER, END_MARKER, le32enc, h6, h4]
  omega

/-! ### Reading the header fields of an encoded frame -/

theorem encode_take4 (w : WireFrame) (rest : List Nat) :
    (encodeFrame w ++ rest).take 4 = START_MARKER := by
  rw [encodeFrame_append]
  exact take_append_eq _ _ _ rfl

theorem encode_drop4 (w : WireFrame) (rest : List Nat) (_h6 : w.sid.length = 6) :
    (encodeFrame w ++ rest).drop 4 =
      w.sid ++ ([w.ftype] ++ (le32enc w.seq ++ (le32enc w.payload.length ++
        (w.payload ++ (w.cksum ++ (END_MARKER ++ rest)))))) := by
  rw [encodeFrame_append]
  exact drop_append_eq _ _ _ rfl

theorem encode_drop10 (w : WireFrame) (rest : List Nat)
    (h6 : w.sid.length = 6) :
    (encodeFrame w ++ rest).drop 10 =
      [w.ftype] ++ (le32enc w.seq ++ (le32enc w.payload.length ++
        (w.payload ++ (w.cksum ++ (END_MARKER ++ rest))))) := by
  have h : (10 : Nat) = 4 + 6 := rfl
  rw [h, drop_add, encode_drop4 w rest h6]
  exact drop_append_eq _ _ _ h6

theorem encode_drop11 (w : WireFrame) (rest : List Nat)
    (h6 : w.sid.length = 6) :
    (encodeFrame w ++ rest).drop 11 =
      le32enc w.seq ++ (le32enc w.payload.length ++
        (w.payload ++ (w.cksum ++ (END_MARKER ++ rest)))) := by
  have h : (11 : Nat) = 10 + 1 := rfl
  rw [h, drop_add, encode_drop10 w rest h6]
  exact drop_append_eq _ _ _ rfl

theorem encode_drop15 (w : WireFrame) (rest : List Nat)
    (h6 : w.sid.length = 6) :
    (encodeFrame w ++ rest).drop 15 =
      le32enc w.payload.length ++ (w.payload ++ (w.cksum ++
        (END_MARKER ++ rest))) := by
  have h : (15 : Nat) = 11 + 4 := rfl
  rw [h, drop_add, encode_drop11 w rest h6]
  exact drop_append_eq _ _ _ rfl

theorem encode_drop19 (w : WireFrame) (rest : List Nat)
    (h6 : w.sid.length = 6) :
    (encodeFrame w ++ rest).drop 19 =
      w.payload ++ (w.cksum ++ (END_MARKER ++ rest)) := by
  have h : (19 : Nat) = 15 + 4 := rfl
  rw [h, drop_add, encode_drop15 w rest h6]
  exact drop_append_eq _ _ _ rfl

/-- parse_header succeeds on a well-formed encoded frame and returns its
header fields. -/
theorem parse_header_encode (w : WireFrame) (rest : List Nat)
    (h6 : w.sid.length = 6) (hp : w.payload.length ≤ 512)
    (hs : w.seq ≤ 1000000) :
    parse_header (encodeFrame w ++ rest) 0 =
      .ok (macStr w.sid, w.ftype, w.seq, w.payload.length) := by
  have hmac : ((encodeFrame w ++ rest).drop 4).take 6 = w.sid := by
    rw [encode_drop4 w rest h6]
    exact take_append_eq _ _ _ h6
  have hft : ((encodeFrame w ++ rest).drop 10).headD 0 = w.ftype := by
    rw [encode_drop10 w rest h6]
    rfl
  have hseqr : ((encodeFrame w ++ rest).drop 11).take 4 = le32enc w.seq := by
    rw [encode_drop11 w rest h6]
    exact take_append_eq _ _ _ rfl
  have hlenr : ((encodeFrame w ++ rest).drop 15).take 4 =
      le32enc w.payload.length := by
    rw [encode_drop15 w rest h6]
    exact take_append_eq _ _ _ rfl
  have hlen : 19 ≤ (encodeFrame w ++ rest).length := by
    simp [encodeFrame, START_MARKER, END_MARKER, le32enc, h6]
    omega
  simp only [parse_header, START_MARKER, List.length_cons, List.length_nil,
    MAC_ADDRESS_LENGTH, FRAME_TYPE_LENGTH, SEQUENCE_NUM_LENGTH,
    LENGTH_FIELD_BYTES, Nat.zero_add]
  rw [if_neg (by omega)]
  have e4 : 0 + 0 + 1 + 1 + 1 + 1 = 4 := rfl
  have e10 : 0 + 0 + 1 + 1 + 1 + 1 + 6 = 10 := rfl
  have e11 : 0 + 0 + 1 + 1 + 1 + 1 + 6 + 1 = 11 := rfl
  have e15 : 0 + 0 + 1 + 1 + 1 + 1 + 6 + 1 + 4 = 15 := rfl
  rw [e4, e10, e11, e15, hmac, hft, hseqr, hlenr,
    le32_le32enc w.seq (by omega), le32_le32enc w.payload.length (by omega)]
  rw [if_neg (by omega), if_neg (by omega)]

/-- One loop iteration on a buffer that starts with a well-formed encoded
frame dispatches exactly that frame, for every value of the 4 checksum
bytes, and continues with the remaining bytes. -/
theorem processStep_encode (w : WireFrame) (rest : List Nat)
    (hv : w.Valid) :
    processStep (encodeFrame w ++ rest) = .emit (frameOf w) rest := by
  obtain ⟨h6, h4, hp, hs⟩ := hv
  have hfind : findStart (encodeFrame w ++ rest) = some 0 :=
    findStart_of_take4 _ (encode_take4 w rest)
  have hlenbuf : (encodeFrame w ++ rest).length =
      27 + w.payload.length + rest.length := by
    rw [List.length_append, encodeFrame_length w h6 h4]
  have hd19 := encode_drop19 w rest h6
  have hchunk : ((encodeFrame w ++ rest).drop 19).take w.payload.length =
      w.payload := by
    rw [hd19]
    exact take_append_eq _ _ _ rfl
  have hd23 : (encodeFrame w ++ rest).drop (19 + w.payload.length + 4) =
      END_MARKER ++ rest := by
    have e : 19 + w.payload.length + 4 = 19 + (w.payload.length + 4) := by
      omega
    rw [e, drop_add, hd19, drop_add, drop_append_eq _ _ _ rfl,
      drop_append_eq _ _ _ h4]
  have hfoot : ((encodeFrame w ++ rest).drop
      (19 + w.payload.length + 4)).take 4 = END_MARKER := by
    rw [hd23]
    exact take_append_eq _ _ _ rfl
  have hd27 : (encodeFrame w ++ rest).drop (19 + w.payload.length + 4 + 4) =
      rest := by
    rw [drop_add, hd23]
    exact drop_append_eq _ _ _ rfl
  have hmacl : (((encodeFrame w ++ rest).drop 4).take 6).length = 6 := by
    rw [encode_drop4 w rest h6, take_append_eq _ _ _ h6, h6]
  unfold processStep
  rw [hfind]
  simp only
  rw [if_neg (by omega)]
  rw [if_neg (by rw [header_length_eq]; omega)]
  rw [parse_header_encode w rest h6 hp hs]
  simp only
  rw [if_neg (by
    simp only [START_MARKER_length, MAC_ADDRESS_LENGTH]
    push_neg
    exact ⟨hp, hmacl⟩)]
  simp only [header_length_eq, CHECKSUM_LENGTH, END_MARKER_length]
  rw [if_neg (by omega)]
  rw [if_pos hfoot]
  rw [hchunk, hd27]
  rfl

/-- A successful parse implies the two header limit checks passed. -/
theorem parse_header_ok_bounds (buf : List Nat) (m : String) (t s d : Nat)
    (h : parse_header buf 0 = .ok (m, t, s, d)) : d ≤ 512 ∧ s ≤ 1000000 := by
  simp only [parse_header] at h
  split_ifs at h with g1 g2 g3
  all_goals cases h
  exact ⟨by omega, by omega⟩

/-- On any buffer, a dispatch can only happen with the start marker at
index 0, a successfully parsed header whose LEN and SEQ pass the limit
checks, a complete frame in the buffer, and a bit-exact end marker; the
dispatched frame carries exactly the parsed fields and the payload
slice, and the checksum bytes (indices 19+LEN to 22+LEN) are read by
none of these conditions. -/
theorem processStep_emit_inv (buf : List Nat) (f : Frame) (rest : List Nat)
    (h : processStep buf = .emit f rest) :
    findStart buf = some 0 ∧
    ∃ d, parse_header buf 0 = .ok (f.sender_mac, f.frame_type, f.seq_num, d) ∧
      d ≤ 512 ∧ f.seq_num ≤ 1000000 ∧ 19 + d + 4 + 4 ≤ buf.length ∧
      f.payload = (buf.drop 19).take d ∧
      (buf.drop (19 + d + 4)).take 4 = END_MARKER ∧
      rest = buf.drop (19 + d + 4 + 4) := by
  unfold processStep at h
  cases hfs : findStart buf with
  | none =>
    rw [hfs] at h
    try simp only at h
    exact absurd h (by simp)
  | some i =>
    rw [hfs] at h
    try simp only at h
    by_cases hi : 0 < i
    · rw [if_pos hi] at h
      exact absurd h (by simp)
    · have hz : i = 0 := by omega
      subst hz
      rw [if_neg hi] at h
      by_cases hl : buf.length < header_length
      · rw [if_pos hl] at h
        exact absurd h (by simp)
      · rw [if_neg hl] at h
        cases hp : parse_header buf 0 with
        | error e =>
          rw [hp] at h
          try simp only at h
          exact absurd h (by simp)
        | ok r =>
          obtain ⟨m, t, s, d⟩ := r
          have hds := parse_header_ok_bounds buf m t s d hp
          rw [hp] at h
          try simp only at h
          split_ifs at h with h1 h2 h3
          all_goals cases h
          refine ⟨rfl, d, rfl, hds.1, hds.2, ?_, rfl, ?_, rfl⟩
          · simp only [header_length_eq, CHECKSUM_LENGTH,
              END_MARKER_length] at h2
            omega
          · simp only [header_length_eq, CHECKSUM_LENGTH,
              END_MARKER_length] at h3
            exact h3

/--
C1: a frame is dispatched to the frame-type handler if and only if its
header parses (with the LEN ≤ 512 and SEQ ≤ 1,000,000 checks), its
declared payload length fits the buffer, and the 4 bytes at offset
header + LEN + 4 equal the end marker CD EF 56 78 bit-exactly.  The
4-byte checksum field is never inspected: dispatch succeeds with the
same frame for every value of the checksum bytes (first conjunct,
universally quantified over the checksum field), and every dispatch is
determined by the non-checksum conditions alone (second conjunct).
-/
theorem c1_dispatch_iff_header_and_end_marker :
    (∀ (w : WireFrame) (rest : List Nat), w.Valid →
      processStep (encodeFrame w ++ rest) = .emit (frameOf w) rest) ∧
    (∀ (buf : List Nat) (f : Frame) (rest : List Nat),
      processStep buf = .emit f rest →
      findStart buf = some 0 ∧
      ∃ d, parse_header buf 0 =
          .ok (f.sender_mac, f.frame_type, f.seq_num, d) ∧
        d ≤ 512 ∧ f.seq_num ≤ 1000000 ∧ 19 + d + 4 + 4 ≤ buf.length ∧
        f.payload = (buf.drop 19).take d ∧
        (buf.drop (19 + d + 4)).take 4 = END_MARKER ∧
        rest = buf.drop (19 + d + 4 + 4)) :=
  ⟨fun w rest hv => processStep_encode w rest hv,
   fun buf f rest h => processStep_emit_inv buf f rest h⟩

/-- Witness for C1: a concrete EOF frame with a nonzero checksum is
dispatched, with the bytes after it untouched. -/
theorem c1_dispatch_iff_header_and_end_marker_witness :
    processStep (encodeFrame ⟨[1, 2, 3, 4, 5, 6], 3, 7, [], [9, 9, 9, 9]⟩ ++
        [0xde, 0xad]) =
      .emit ⟨macStr [1, 2, 3, 4, 5, 6], 3, 7, []⟩ [0xde, 0xad] :=
  c1_dispatch_iff_header_and_end_marker.1
    ⟨[1, 2, 3, 4, 5, 6], 3, 7, [], [9, 9, 9, 9]⟩ [0xde, 0xad]
    ⟨by decide, by decide, by decide, by decide⟩

/-! ### Chunk-boundary behaviour (C2) -/

theorem encodeAll_nil : encodeAll [] = [] := rfl

theorem encodeAll_cons (w : WireFrame) (ws : List WireFrame) :
    encodeAll (w :: ws) = encodeFrame w ++ encodeAll ws := by
  simp [encodeAll]

theorem encodeAll_append (a b : List WireFrame) :
    encodeAll (a ++ b) = encodeAll a ++ encodeAll b := by
  simp [encodeAll]

theorem encodeFrame_length_pos (w : WireFrame) (hv : w.Valid) :
    27 ≤ (encodeFrame w).length := by
  rw [encodeFrame_length w hv.1 hv.2.1]
  omega

/-- Splitting a prefix of an append at the boundary of the first part. -/
theorem prefix_split {α : Type} (a b q : List α) (h : q <+: a ++ b)
    (hl : a.length ≤ q.length) : ∃ q', q = a ++ q' ∧ q' <+: b := by
  obtain ⟨t, ht⟩ := h
  refine ⟨q.drop a.length, ?_, t, ?_⟩
  · have h1 : (q ++ t).take a.length = q.take a.length :=
      List.take_append_of_le_length hl
    have h2 : (a ++ b).take a.length = a := take_append_eq _ _ _ rfl
    have h3 : q.take a.length = a := by rw [← h1, ht, h2]
    conv_lhs => rw [← List.take_append_drop a.length q]
    rw [h3]
  · have h1 : (q ++ t).drop a.length = q.drop a.length ++ t :=
      List.drop_append_of_le_length hl
    have h2 : (a ++ b).drop a.length = b := drop_append_eq _ _ _ rfl
    rw [← h1, ht, h2]

/-- A strict prefix of a well-formed encoded frame makes the loop stop
and wait for more bytes, leaving the buffer untouched. -/
theorem processStep_prefix (w : WireFrame) (p : List Nat) (hv : w.Valid)
    (hpre : p <+: encodeFrame w) (hlt : p.length < (encodeFrame w).length) :
    processStep p = .stop p := by
  obtain ⟨h6, h4, hp, hs⟩ := hv
  obtain ⟨t, ht⟩ := hpre
  by_cases h4le : 4 ≤ p.length
  · have hstart : p.take 4 = START_MARKER := by
      have h1 : (p ++ t).take 4 = p.take 4 :=
        List.take_append_of_le_length h4le
      have h2 : (encodeFrame w ++ []).take 4 = START_MARKER :=
        encode_take4 w []
      rw [List.append_nil] at h2
      rw [← h1, ht, h2]
    have hfind : findStart p = some 0 := findStart_of_take4 p hstart
    unfold processStep
    rw [hfind]
    simp only
    rw [if_neg (by omega)]
    by_cases h19 : p.length < header_length
    · rw [if_pos h19]
    · rw [if_neg h19]
      rw [header_length_eq] at h19
      have htk19 : p.take 19 = (encodeFrame w).take 19 := by
        have h1 : (p ++ t).take 19 = p.take 19 :=
          List.take_append_of_le_length (by omega)
        rw [← h1, ht]
      have hparse : parse_header p 0 =
          .ok (macStr w.sid, w.ftype, w.seq, w.payload.length) := by
        have e1 := parse_header_take p 0
        have e2 := parse_header_take (encodeFrame w) 0
        rw [Nat.zero_add] at e1 e2
        rw [← e1, htk19, e2]
        have e3 : encodeFrame w = encodeFrame w ++ [] :=
          (List.append_nil _).symm
        rw [e3]
        exact parse_header_encode w [] h6 hp hs
      rw [hparse]
      simp only
      rw [if_neg (by
        simp only [START_MARKER_length, MAC_ADDRESS_LENGTH]
        push_neg
        refine ⟨hp, ?_⟩
        simp only [List.length_take, List.length_drop]
        omega)]
      simp only [header_length_eq, CHECKSUM_LENGTH, END_MARKER_length]
      rw [if_pos (by
        rw [encodeFrame_length w h6 h4] at hlt
        omega)]
  · have hfind : findStart p = none := findStart_short p (by omega)
    unfold processStep
    rw [hfind]
    simp only
    rw [if_neg (by rw [START_MARKER_length]; omega)]

/-- The per-frame leftover invariant: the residual buffer is empty when
no frames remain, and otherwise a strict prefix of the next frame. -/
def PartialBuf : List WireFrame → List Nat → Prop
  | [], p => p = []
  | w :: _, p => p <+: encodeFrame w ∧ p.length < (encodeFrame w).length

theorem processBuffer_nil : processBuffer [] = ([], []) := by
  have h : processStep [] = .stop [] := by decide
  exact processBuffer_stop [] [] h

/-- Processing any prefix of a stream of well-formed frames dispatches
exactly the frames fully contained in it and leaves the strict-prefix
remainder in the buffer. -/
theorem processBuffer_stream : ∀ (ws : List WireFrame),
    (∀ w ∈ ws, w.Valid) → ∀ q, q <+: encodeAll ws →
    ∃ ws₁ ws₂ p, ws = ws₁ ++ ws₂ ∧ q = encodeAll ws₁ ++ p ∧
      PartialBuf ws₂ p ∧ processBuffer q = (ws₁.map frameOf, p) := by
  intro ws
  induction ws with
  | nil =>
    intro hval q hq
    rw [encodeAll_nil] at hq
    have hq0 : q = [] := List.prefix_nil.mp hq
    subst hq0
    exact ⟨[], [], [], rfl, rfl, rfl, processBuffer_nil⟩
  | cons w ws ih =>
    intro hval q hq
    rw [encodeAll_cons] at hq
    by_cases hlen : q.length < (encodeFrame w).length
    · have hqpre : q <+: encodeFrame w := by
        have h1 : q = (encodeFrame w).take q.length := by
          obtain ⟨t, ht⟩ := hq
          calc q = (q ++ t).take q.length := by
                rw [List.take_append_of_le_length (le_refl _),
                  List.take_length]
            _ = (encodeFrame w ++ encodeAll ws).take q.length := by rw [ht]
            _ = (encodeFrame w).take q.length :=
                List.take_append_of_le_length (by omega)
        rw [h1]
        exact List.take_prefix _ _
      have hstop := processStep_prefix w q (hval w (by simp)) hqpre hlen
      refine ⟨[], w :: ws, q, rfl, rfl, ⟨hqpre, hlen⟩, ?_⟩
      rw [processBuffer_stop q q hstop]
      rfl
    · obtain ⟨q', hq'eq, hq'pre⟩ :=
        prefix_split (encodeFrame w) (encodeAll ws) q hq (by omega)
      subst hq'eq
      have hemit := processStep_encode w q' (hval w (by simp))
      obtain ⟨ws₁, ws₂, p, hws, hqdec, hpart, hpb⟩ :=
        ih (fun x hx => hval x (by simp [hx])) q' hq'pre
      refine ⟨w :: ws₁, ws₂, p, by rw [hws]; rfl, ?_, hpart, ?_⟩
      · rw [encodeAll_cons, hqdec, List.append_assoc]
      · rw [processBuffer_emit _ _ _ hemit, hpb]
        rfl

/-- Feeding chunks that jointly complete a stream of well-formed frames
from any quiescent state dispatches all remaining frames. -/
theorem feed_chunks : ∀ (chunks : List (List Nat)) (ws : List WireFrame)
    (acc : List Frame) (p : List Nat),
    (∀ w ∈ ws, w.Valid) → PartialBuf ws p →
    p ++ chunks.flatten = encodeAll ws →
    chunks.foldl feed (acc, p) = (acc ++ ws.map frameOf, []) := by
  intro chunks
  induction chunks with
  | nil =>
    intro ws acc p hval hpart hflat
    simp only [List.flatten_nil, List.append_nil] at hflat
    cases ws with
    | nil =>
      simp only [PartialBuf] at hpart
      subst hpart
      simp
    | cons w ws =>
      exfalso
      simp only [PartialBuf] at hpart
      have h1 : (encodeFrame w).length ≤ (encodeAll (w :: ws)).length := by
        rw [encodeAll_cons, List.length_append]
        omega
      rw [← hflat] at h1
      omega
  | cons c cs ih =>
    intro ws acc p hval hpart hflat
    simp only [List.foldl_cons]
    have hqpre : p ++ c <+: encodeAll ws := by
      refine ⟨cs.flatten, ?_⟩
      simp only [List.flatten_cons] at hflat
      rw [List.append_assoc]
      exact hflat
    obtain ⟨ws₁, ws₂, p', hws, hqdec, hpart', hpb⟩ :=
      processBuffer_stream ws hval (p ++ c) hqpre
    have hfeed : feed (acc, p) c = (acc ++ ws₁.map frameOf, p') := by
      unfold feed
      rw [hpb]
    rw [hfeed]
    have hval₂ : ∀ w ∈ ws₂, w.Valid := by
      intro x hx
      exact hval x (by rw [hws]; simp [hx])
    have hflat₂ : p' ++ cs.flatten = encodeAll ws₂ := by
      have h1 : encodeAll ws = encodeAll ws₁ ++ encodeAll ws₂ := by
        rw [hws, encodeAll_append]
      simp only [List.flatten_cons] at hflat
      rw [← List.append_assoc, hqdec] at hflat
      rw [h1] at hflat
      rw [List.append_assoc] at hflat
      exact List.append_cancel_left hflat
    rw [ih ws₂ (acc ++ ws₁.map frameOf) p' hval₂ hpart' hflat₂]
    rw [hws, List.map_append, List.append_assoc]

/-! ### C2 counterexample: a frame straddling a chunk boundary after a
frame error is lost, while the one-shot feed recovers it. -/

/-- A 27-byte frame whose end-marker field holds zeros: header parses
but the end-marker check fails, taking the error-resync path. -/
def c2_badFrame : List Nat :=
  START_MARKER ++ ([1, 2, 3, 4, 5, 6] ++ ([2] ++ (le32enc 1 ++
    (le32enc 0 ++ ([0, 0, 0, 0] ++ [0, 0, 0, 0])))))

/-- A well-formed EOF frame from another sender. -/
def c2_goodWire : WireFrame :=
  ⟨[0x11, 0x22, 0x33, 0x44, 0x55, 0x66], 3, 2, [], [0, 0, 0, 0]⟩

/-- First chunk: the bad frame plus the first 3 bytes of the good
frame's start marker. -/
def c2_chunk1 : List Nat := c2_badFrame ++ [0xfa, 0xce, 0xaa]

/-- Second chunk: the rest of the good frame. -/
def c2_chunk2 : List Nat := (encodeFrame c2_goodWire).drop 3

/--
C2 counterexample: feeding the same byte sequence in two chunks yields a
different dispatched-frame sequence than feeding it in one chunk.  After
the bad frame's end-marker mismatch, the resync path finds no complete
start marker in the partial buffer and clears it, destroying the three
marker bytes of the follow-on frame; the one-shot feed sees the full
marker and dispatches the good frame.
-/
theorem c2_counterexample :
    feedAll [c2_chunk1, c2_chunk2] ≠ feedAll [c2_chunk1 ++ c2_chunk2] := by
  decide

/--
C2 (amended): chunk-boundary invariance holds for byte sequences that
are concatenations of well-formed frames (header parseable, LEN ≤ 512,
SEQ ≤ 1,000,000, 6 MAC bytes, 4 checksum bytes, correct end marker):
every partition of such a stream into chunks dispatches exactly the
stream's frames, in order, with an empty residual buffer — in
particular the same result as feeding the whole sequence at once.  For
arbitrary byte sequences the property fails (c2_counterexample): the
error-resync path can clear a buffer that ends with a partial start
marker, losing a frame that the one-shot feed dispatches.
-/
theorem c2_chunk_invariance_wellformed (ws : List WireFrame)
    (chunks : List (List Nat)) (hval : ∀ w ∈ ws, w.Valid)
    (hflat : chunks.flatten = encodeAll ws) :
    feedAll chunks = (ws.map frameOf, []) ∧
      feedAll chunks = feedAll [chunks.flatten] := by
  have hpart : PartialBuf ws [] := by
    cases ws with
    | nil => rfl
    | cons w t =>
      refine ⟨List.nil_prefix, ?_⟩
      have := encodeFrame_length_pos w (hval w (by simp))
      simp only [List.length_nil]
      omega
  have h1 : feedAll chunks = (ws.map frameOf, []) := by
    unfold feedAll
    rw [feed_chunks chunks ws [] [] hval hpart (by simpa using hflat)]
    rfl
  have h2 : feedAll [chunks.flatten] = (ws.map frameOf, []) := by
    unfold feedAll
    rw [feed_chunks [chunks.flatten] ws [] [] hval hpart
      (by simpa using hflat)]
    rfl
  exact ⟨h1, h1.trans h2.symm⟩

/-- Witness for the amended C2 at a concrete two-chunk partition of a
single EOF frame. -/
theorem c2_chunk_invariance_wellformed_witness :
    feedAll [(encodeFrame c2_goodWire).take 5,
        (encodeFrame c2_goodWire).drop 5] =
      ([frameOf c2_goodWire], []) :=
  (c2_chunk_invariance_wellformed [c2_goodWire]
    [(encodeFrame c2_goodWire).take 5, (encodeFrame c2_goodWire).drop 5]
    (by intro w hw; cases hw with
      | head => exact ⟨by decide, by decide, by decide, by decide⟩
      | tail _ h => cases h)
    (by simp [encodeAll])).1

/-! ## Sleep policy (processors/sleep_controller.py) -/

/-- format_sleep_command_to_gateway: the command line written to the
transport. -/
def format_sleep_command_to_gateway (sender_mac : String)
    (sleep_duration_s : Nat) : String :=
  "CMD_SEND_ESP_NOW:" ++ sender_mac ++ ":" ++ toString sleep_duration_s ++
    "\n"

/-- determine_sleep_duration.  The battery voltage is Optional[float],
modelled as an optional rational; datetime.now().hour is passed as an
explicit argument. -/
def determine_sleep_duration (voltage_percent : Option ℚ)
    (current_hour : Nat) : Nat :=
  match voltage_percent with
  | none => config.DEFAULT_SLEEP_DURATION_S
  | some v =>
    if v < (config.LOW_VOLTAGE_THRESHOLD_PERCENT : ℚ) then
      if current_hour ≥ 12 then config.LONG_SLEEP_DURATION_S
      else config.MEDIUM_SLEEP_DURATION_S
    else config.NORMAL_SLEEP_DURATION_S

/--
C3: the sleep-duration policy returns exactly 60 s for an unknown
voltage; 32400 s (9 h) for voltage < 8 with hour ≥ 12; 3600 s (1 h) for
voltage < 8 with hour < 12; and 600 s (10 min) otherwise.
-/
theorem c3_sleep_duration_policy (v : ℚ) (h : Nat) :
    determine_sleep_duration none h = 60 ∧
    determine_sleep_duration (some v) h =
      (if v < 8 then (if 12 ≤ h then 32400 else 3600) else 600) := by
  refine ⟨rfl, ?_⟩
  have hc : ((config.LOW_VOLTAGE_THRESHOLD_PERCENT : Nat) : ℚ) = 8 := by
    norm_num [config]
  simp only [determine_sleep_duration, hc, ge_iff_le]
  split_ifs <;> norm_num [config]

/-! ## DataParser (utils/data_parser.py)

Python strings are modelled as lists of characters, with the string
operations the module uses implemented structurally. -/

/-- str.startswith on character lists. -/
def isPrefixL : List Char → List Char → Bool
  | [], _ => true
  | _ :: _, [] => false
  | a :: ps, b :: ss => a == b && isPrefixL ps ss

/-- Substring containment (the Python in operator). -/
def containsL (pat : List Char) : List Char → Bool
  | [] => isPrefixL pat []
  | s@(_ :: rest) => isPrefixL pat s || containsL pat rest

/-- str.split(",") on character lists. -/
def splitComma : List Char → List (List Char)
  | [] => [[]]
  | c :: rest =>
    if c == ',' then [] :: splitComma rest
    else
      match splitComma rest with
      | [] => [[c]]
      | h :: t => (c :: h) :: t

/-- str.replace(pat, ""), fuel-bounded by the string length (each loop
iteration of the scan advances at least one character). -/
def removeAllAux (pat : List Char) : Nat → List Char → List Char
  | 0, s => s
  | _ + 1, [] => []
  | fuel + 1, s@(c :: rest) =>
    if isPrefixL pat s && !pat.isEmpty then
      removeAllAux pat fuel (s.drop pat.length)
    else c :: removeAllAux pat fuel rest

def removeAll (pat s : List Char) : List Char := removeAllAux pat s.length s

/-- Split at the first dot, if any. -/
def splitDot : List Char → List Char × Option (List Char)
  | [] => ([], none)
  | c :: rest =>
    if c == '.' then ([], some rest)
    else
      let r := splitDot rest
      (c :: r.1, r.2)

def digitsOnly (cs : List Char) : Bool := cs.all (fun c => c.isDigit)

def natOfDigits (cs : List Char) : Nat :=
  cs.foldl (fun a c => a * 10 + (c.toNat - 48)) 0

/-- Magnitude of a Python decimal float literal: digits with an optional
fractional part; anything else raises ValueError (none). -/
def parsePyMag (cs : List Char) : Option ℚ :=
  match splitDot cs with
  | (ip, none) =>
    if ip.isEmpty || !digitsOnly ip then none
    else some ((natOfDigits ip : Nat) : ℚ)
  | (ip, some fp) =>
    if (ip.isEmpty && fp.isEmpty) || !digitsOnly ip || !digitsOnly fp then
      none
    else
      some (((natOfDigits ip : Nat) : ℚ) +
        ((natOfDigits fp : Nat) : ℚ) / ((10 : ℚ) ^ fp.length))

/-- Python float() on the decimal literals the devices emit: optional
sign, digits, optional fractional digits. -/
def parsePyFloat (cs : List Char) : Option ℚ :=
  match cs with
  | '-' :: rest => (parsePyMag rest).map (fun q => -q)
  | '+' :: rest => parsePyMag rest
  | _ => parsePyMag cs

/-- DataParser.extract_value_from_payload.  The prefixes used by the
callers (VOLT: and TEMP:) end in their only colon, so the Python
part.split(":", 1)[1] equals dropping the prefix. -/
def extract_value_from_payload (payload pref : List Char) :
    Option (List Char) :=
  if containsL pref payload then
    match (splitComma payload).find? (fun part => isPrefixL pref part) with
    | some part => some (part.drop pref.length)
    | none =>
      if isPrefixL pref payload then some (removeAll pref payload) else none
  else none

/-- DataParser.extract_voltage_with_validation (the sender_mac argument
is used only for logging and is dropped).  The branch rejecting the
literal volt string 100 is translated as it stands in the source. -/
def extract_voltage_with_validation (payload : List Char) : Option ℚ :=
  match extract_value_from_payload payload ("VOLT:".toList) with
  | some volt_str =>
    if volt_str ≠ "100".toList then
      match parsePyFloat volt_str with
      | some v => some v
      | none => none
    else none
  | none => none

/--
C5: the voltage extractor evaluated at the failing input.  A parseable
VOLT field is returned in general (first conjunct, VOLT:85 gives 85),
but the input string 100 is still discarded by the explicit
volt_str != "100" check in data_parser.py line 91: the extractor
returns None, contradicting both the spec sentence and the repository's
own unit test test_extract_voltage_with_validation_with_100, which
asserts 100.0.
-/
theorem c5_voltage_100_discarded :
    extract_voltage_with_validation ("VOLT:85".toList) = some 85 ∧
    extract_voltage_with_validation ("VOLT:100".toList) = none := by
  constructor <;> decide

/-! ## Association-list dictionaries

The StreamingImageProcessor's per-source tables are modelled as
association lists (Python dicts in insertion order, needed for len and
min over entries). -/

/-- dict lookup. -/
def dget {α : Type} (d : List (String × α)) (k : String) : Option α :=
  (d.find? (fun p => p.1 == k)).map (fun p => p.2)

/-- dict assignment: overwrite the entry in place, or append. -/
def dset {α : Type} : List (String × α) → String → α → List (String × α)
  | [], k, v => [(k, v)]
  | p :: t, k, v => if p.1 == k then (k, v) :: t else p :: dset t k v

/-- del dict[k]. -/
def ddel {α : Type} (d : List (String × α)) (k : String) :
    List (String × α) :=
  d.filter (fun p => !(p.1 == k))

/-! ## Function-valued dictionaries

The StreamingSerialProtocol's caches (voltage, sleep-sent, EOF-seen,
image-expected) are only ever read pointwise, so they are modelled as
functions to Option. -/

/-- dict[k] = v. -/
def fset {α : Type} (f : String → Option α) (k : String) (v : α) :
    String → Option α :=
  fun k2 => if k2 = k then some v else f k2

/-- del dict[k]. -/
def fdel {α : Type} (f : String → Option α) (k : String) :
    String → Option α :=
  fun k2 => if k2 = k then none else f k2

/-- Remove every timestamped entry older than thr (the cleanup loops of
_send_sleep_command). -/
def fprune (f : String → Option ℚ) (thr : ℚ) : String → Option ℚ :=
  fun k =>
    match f k with
    | some t => if t < thr then none else some t
    | none => none

/-! ## StreamingImageProcessor
(processors/streaming_image_processor.py)

Scratch files live under streaming_temp keyed by the safe MAC; the model
keys them by the sender MAC directly.  File I/O succeeds (the error
branches abort the stream; they are not reachable in the model), and the
saved_images list stands for the image sink (finalize generates the
final path from the MAC and a timestamp). -/

structure StreamingImageMetadata where
  started_at : ℚ
  total_chunks_received : Nat
  total_bytes_received : Nat
  last_chunk_time : ℚ
  sequence_numbers : List Nat
deriving DecidableEq

structure ProcState where
  active_streams : List (String × StreamingImageMetadata)
  temp_files : List (String × List Nat)
  saved_images : List (String × List Nat)
deriving DecidableEq

def ProcState.init : ProcState := ⟨[], [], []⟩

/-- abort_stream / _cleanup_stream: drop the stream metadata and delete
the temp file (the reason string is only logged). -/
def cleanup_stream (s : ProcState) (mac : String) : ProcState :=
  { s with active_streams := ddel s.active_streams mac,
           temp_files := ddel s.temp_files mac }

/-- min over the active streams by started_at; Python's min keeps the
first minimal element in iteration (insertion) order. -/
def oldestStream : List (String × StreamingImageMetadata) →
    Option (String × StreamingImageMetadata)
  | [] => none
  | p :: t =>
    match oldestStream t with
    | none => some p
    | some q => if q.2.started_at < p.2.started_at then some q else some p

/-- start_image_stream (hash_data is metadata only and not modelled). -/
def start_image_stream (s : ProcState) (mac : String) (now : ℚ) :
    ProcState :=
  let s1 :=
    if 5 ≤ s.active_streams.length then
      (match oldestStream s.active_streams with
        | some old => cleanup_stream s old.1
        | none => s)
    else s
  let s2 :=
    if (dget s1.active_streams mac).isSome then cleanup_stream s1 mac
    else s1
  { s2 with
    active_streams := dset s2.active_streams mac ⟨now, 0, 0, now, []⟩ }

/-- process_chunk.  The first-chunk JPEG-header validation only logs a
warning and continues; the statistics callback has no state effect. -/
def process_chunk (s : ProcState) (mac : String) (chunk : List Nat)
    (sequence_number : Nat) (now : ℚ) : ProcState :=
  let s1 :=
    if (dget s.active_streams mac).isNone then start_image_stream s mac now
    else s
  match dget s1.active_streams mac with
  | none => s1
  | some meta =>
    let meta2 := { meta with
      total_chunks_received := meta.total_chunks_received + 1,
      total_bytes_received := meta.total_bytes_received + chunk.length,
      last_chunk_time := now,
      sequence_numbers := meta.sequence_numbers ++ [sequence_number] }
    { s1 with
      active_streams := dset s1.active_streams mac meta2,
      temp_files := dset s1.temp_files mac
        ((dget s1.temp_files mac).getD [] ++ chunk) }

/-- finalize_image_stream: rejects (returning none, aborting the stream)
when no stream is active, the temp file is missing, or the file is
smaller than 1000 bytes; otherwise moves the blob to the image sink. -/
def finalize_image_stream (s : ProcState) (mac : String) :
    ProcState × Option (List Nat) :=
  if (dget s.active_streams mac).isNone then (s, none)
  else
    match dget s.temp_files mac with
    | none => (cleanup_stream s mac, none)
    | some data =>
      if data.length < 1000 then (cleanup_stream s mac, none)
      else
        let s1 := { s with
          temp_files := ddel s.temp_files mac,
          saved_images := s.saved_images ++ [(mac, data)] }
        (cleanup_stream s1 mac, some data)

/-! ## StreamingSerialProtocol dispatch state
(protocol/streaming_handler.py)

time.time() values are passed explicitly; the wall-clock hour read by
determine_sleep_duration is a separate argument.  The transport is
present and its write succeeds (with no transport, or a write error,
nothing is written and nothing is recorded). -/

structure HandlerState where
  proc : ProcState
  voltage_cache : String → Option (Option ℚ)
  sleep_command_sent : String → Option ℚ
  has_image_data_cache : String → Option Bool
  eof_processed : String → Option ℚ
  writes : List (String × ℚ × String)

def HandlerState.init : HandlerState :=
  ⟨ProcState.init, fun _ => none, fun _ => none, fun _ => none,
    fun _ => none, []⟩

/-- _send_sleep_command (lines 376-414): prune both history dicts, skip
if a command went to this MAC within the last 10 s, otherwise write the
command and record the send time. -/
def send_sleep_command (st : HandlerState) (mac : String) (voltage : ℚ)
    (now : ℚ) (hour : Nat) : HandlerState :=
  let st1 := { st with
    sleep_command_sent := fprune st.sleep_command_sent (now - 3600),
    eof_processed := fprune st.eof_processed (now - 3600) }
  let dup : Bool :=
    match st1.sleep_command_sent mac with
    | some t0 => decide (now - t0 < 10)
    | none => false
  if dup then st1
  else
    { st1 with
      writes := st1.writes ++
        [(mac, now, format_sleep_command_to_gateway mac
          (determine_sleep_duration (some voltage) hour))],
      sleep_command_sent := fset st1.sleep_command_sent mac now }

/-- _send_sleep_command_after_eof (lines 416-451): no cached voltage, or
a cached value that is not a float (None), aborts without sending; the
2-second wait before the send is the +2 on the send time. -/
def send_sleep_command_after_eof (st : HandlerState) (mac : String)
    (t_eof : ℚ) (hour : Nat) : HandlerState :=
  match st.voltage_cache mac with
  | none => st
  | some none => st
  | some (some voltage) =>
    let st1 := send_sleep_command st mac voltage (t_eof + 2) hour
    { st1 with
      voltage_cache := fdel st1.voltage_cache mac,
      has_image_data_cache := fdel st1.has_image_data_cache mac }

/-- _process_streaming_eof_frame (lines 338-368): skip a duplicate EOF
within 5 s; otherwise mark it processed, finalize the image stream, and
send the sleep command. -/
def process_streaming_eof_frame (st : HandlerState) (mac : String)
    (now : ℚ) (hour : Nat) : HandlerState :=
  let dup : Bool :=
    match st.eof_processed mac with
    | some t0 => decide (now - t0 < 5)
    | none => false
  if dup then st
  else
    let st1 := { st with eof_processed := fset st.eof_processed mac now }
    let r := finalize_image_stream st1.proc mac
    let st2 := { st1 with proc := r.1 }
    send_sleep_command_after_eof st2 mac now hour

/-! ### C4: EOF with no cached voltage -/

/-- With no cached voltage, or a cached None, the post-EOF send aborts
before writing anything. -/
theorem send_after_eof_no_voltage (st : HandlerState) (mac : String)
    (t : ℚ) (hour : Nat)
    (h : st.voltage_cache mac = none ∨ st.voltage_cache mac = some none) :
    send_sleep_command_after_eof st mac t hour = st := by
  unfold send_sleep_command_after_eof
  rcases h with h | h <;> rw [h]

/--
C4 counterexample: an EOF processed for a source with no cached voltage
writes no sleep command at all — the transport write list stays empty,
rather than carrying the 60-second default command.
-/
theorem c4_counterexample :
    (process_streaming_eof_frame HandlerState.init "01:02:03:04:05:06"
      100 10).writes = [] := rfl

/--
C4 (amended): when an EOF frame is processed for a SID with no cached
voltage (the cache has no entry, or holds None because the HASH voltage
failed to parse), _send_sleep_command_after_eof returns without writing:
no sleep command is emitted at all.  The 60-second default of
determine_sleep_duration is unreachable from the EOF path, which only
ever calls it with a float.
-/
theorem c4_no_voltage_no_sleep_command (st : HandlerState) (mac : String)
    (now : ℚ) (hour : Nat)
    (h : st.voltage_cache mac = none ∨ st.voltage_cache mac = some none) :
    (process_streaming_eof_frame st mac now hour).writes = st.writes := by
  have hsend : ∀ st2 : HandlerState, st2.voltage_cache = st.voltage_cache →
      st2.writes = st.writes →
      (send_sleep_command_after_eof st2 mac now hour).writes = st.writes := by
    intro st2 hv hw
    rw [send_after_eof_no_voltage st2 mac now hour (by rw [hv]; exact h), hw]
  unfold process_streaming_eof_frame
  cases he : st.eof_processed mac with
  | none =>
    simp only
    rw [if_neg (by simp)]
    exact hsend _ rfl rfl
  | some te =>
    simp only
    by_cases hd : now - te < 5
    · rw [if_pos (decide_eq_true hd)]
    · rw [if_neg (by simp [hd])]
      exact hsend _ rfl rfl

/-- Witness for the amended C4 on a concrete state with a pending image
stream and an empty voltage cache. -/
theorem c4_no_voltage_no_sleep_command_witness :
    (process_streaming_eof_frame
      ⟨⟨[("aa:bb:cc:dd:ee:ff", ⟨0, 3, 1500, 1, [1, 2, 3]⟩)],
         [("aa:bb:cc:dd:ee:ff", List.replicate 1500 7)], []⟩,
        fun _ => none, fun _ => none, fun _ => none, fun _ => none, []⟩
      "aa:bb:cc:dd:ee:ff" 100 10).writes = [] :=
  c4_no_voltage_no_sleep_command _ "aa:bb:cc:dd:ee:ff" 100 10 (Or.inl rfl)

/-! ### C7: duplicate EOF deduplication -/

/-- The EOF-processed table after _send_sleep_command: both branches
only prune entries older than one hour. -/
theorem send_sleep_command_eof (st : HandlerState) (mac : String)
    (v now : ℚ) (hour : Nat) :
    (send_sleep_command st mac v now hour).eof_processed =
      fprune st.eof_processed (now - 3600) := by
  unfold send_sleep_command
  simp only
  split <;> rfl

/-- Processing a first EOF at time t0 records t0 in eof_processed. -/
theorem c7_eof_processed_after (st : HandlerState) (mac : String)
    (t0 : ℚ) (hour : Nat) (h : st.eof_processed mac = none) :
    (process_streaming_eof_frame st mac t0 hour).eof_processed mac =
      some t0 := by
  have hfset : (fset st.eof_processed mac t0) mac = some t0 := by
    unfold fset
    simp
  unfold process_streaming_eof_frame
  rw [h]
  simp only
  rw [if_neg (by simp)]
  unfold send_sleep_command_after_eof
  cases hv : st.voltage_cache mac with
  | none =>
    simp only [hv]
    exact hfset
  | some ov =>
    cases ov with
    | none =>
      simp only [hv]
      exact hfset
    | some v =>
      simp only [hv]
      rw [send_sleep_command_eof]
      have hni : ¬ (t0 < t0 + 2 - 3600) := by linarith
      unfold fprune
      simp [hfset, hni]

/--
C7: a second EOF frame for the same SID within 5 seconds of a processed
EOF is skipped entirely — the handler state (image streams, caches,
transport writes) is returned unchanged, so no finalization and no
sleep-command emission happen (first conjunct); consequently two EOF
frames inside the window produce exactly the effects of the first one
alone (second conjunct).
-/
theorem c7_duplicate_eof_skipped :
    (∀ (st : HandlerState) (mac : String) (t0 t1 : ℚ) (hour : Nat),
      st.eof_processed mac = some t0 → t1 - t0 < 5 →
      process_streaming_eof_frame st mac t1 hour = st) ∧
    (∀ (st : HandlerState) (mac : String) (t0 t1 : ℚ) (h0 h1 : Nat),
      st.eof_processed mac = none → t1 - t0 < 5 →
      process_streaming_eof_frame
          (process_streaming_eof_frame st mac t0 h0) mac t1 h1 =
        process_streaming_eof_frame st mac t0 h0) := by
  have hskip : ∀ (st : HandlerState) (mac : String) (t0 t1 : ℚ)
      (hour : Nat), st.eof_processed mac = some t0 → t1 - t0 < 5 →
      process_streaming_eof_frame st mac t1 hour = st := by
    intro st mac t0 t1 hour h hlt
    unfold process_streaming_eof_frame
    rw [h]
    simp only
    rw [if_pos (decide_eq_true hlt)]
  refine ⟨hskip, ?_⟩
  intro st mac t0 t1 h0 h1 h hlt
  exact hskip _ mac t0 t1 h1
    (c7_eof_processed_after st mac t0 h0 h) hlt

/-- Witness for C7 on a concrete state that processed an EOF at time 0
and sees the duplicate at time 3. -/
theorem c7_duplicate_eof_skipped_witness :
    process_streaming_eof_frame
        (process_streaming_eof_frame HandlerState.init "aa:bb:cc:dd:ee:ff"
          0 10) "aa:bb:cc:dd:ee:ff" 3 10 =
      process_streaming_eof_frame HandlerState.init "aa:bb:cc:dd:ee:ff"
        0 10 :=
  c7_duplicate_eof_skipped.2 HandlerState.init "aa:bb:cc:dd:ee:ff" 0 3 10 10
    rfl (by norm_num)

/-! ### C6: sleep-command deduplication -/

/-- Any two sleep commands written for the same MAC are at least 10
seconds apart. -/
def WritesOk (ws : List (String × ℚ × String)) : Prop :=
  ws.Pairwise (fun w1 w2 => w1.1 = w2.1 → w1.2.1 + 10 ≤ w2.2.1)

/-- One _send_sleep_command invocation: target MAC, cached voltage, the
time.time() value at the call, and the wall-clock hour. -/
structure SleepAttempt where
  mac : String
  voltage : ℚ
  t : ℚ
  hour : Nat

/-- Run a sequence of send attempts. -/
def runSleepAttempts (st : HandlerState) (attempts : List SleepAttempt) :
    HandlerState :=
  attempts.foldl
    (fun s a => send_sleep_command s a.mac a.voltage a.t a.hour) st

theorem fprune_eq_some (f : String → Option ℚ) (thr : ℚ) (k : String)
    (t : ℚ) : fprune f thr k = some t ↔ f k = some t ∧ ¬ t < thr := by
  unfold fprune
  cases hf : f k with
  | none => simp
  | some t2 =>
    simp only
    by_cases hc : t2 < thr
    · rw [if_pos hc]
      constructor
      · intro hx
        cases hx
      · rintro ⟨he, hn⟩
        cases he
        exact absurd hc hn
    · rw [if_neg hc]
      constructor
      · intro hx
        cases hx
        exact ⟨rfl, hc⟩
      · rintro ⟨he, _⟩
        cases he
        rfl

theorem fset_self {α : Type} (f : String → Option α) (k : String) (v : α) :
    fset f k v k = some v := by
  unfold fset
  simp

theorem fset_ne {α : Type} (f : String → Option α) (k k2 : String) (v : α)
    (h : k2 ≠ k) : fset f k v k2 = f k2 := by
  unfold fset
  simp [h]

/-- The invariant carried along a run of send attempts whose times have
reached T: writes are 10 s-separated per MAC, no write or history entry
is in the future of T, and every write is covered by a history entry at
least as late as it, unless it is over an hour old. -/
def SentInv (T : ℚ) (st : HandlerState) : Prop :=
  WritesOk st.writes ∧
  (∀ w ∈ st.writes, w.2.1 ≤ T) ∧
  (∀ m t0, st.sleep_command_sent m = some t0 → t0 ≤ T) ∧
  (∀ w ∈ st.writes,
    (∃ t0, st.sleep_command_sent w.1 = some t0 ∧ w.2.1 ≤ t0) ∨
      w.2.1 ≤ T - 3600)

theorem sent_inv_init (T : ℚ) : SentInv T HandlerState.init := by
  refine ⟨List.Pairwise.nil, by simp [HandlerState.init], ?_,
    by simp [HandlerState.init]⟩
  intro m t0 hm
  exact absurd hm (by simp [HandlerState.init])

/-- One send attempt at a time now ≥ T preserves the invariant,
advancing it to now. -/
theorem send_inv_step (st : HandlerState) (mac : String) (v now : ℚ)
    (hour : Nat) (T : ℚ) (hinv : SentInv T st) (hT : T ≤ now) :
    SentInv now (send_sleep_command st mac v now hour) := by
  obtain ⟨hpw, hwT, hsT, hlink⟩ := hinv
  unfold send_sleep_command
  simp only
  split
  · -- duplicate within 10 s: prune only, no write
    refine ⟨hpw, ?_, ?_, ?_⟩
    · intro w hw
      exact le_trans (hwT w hw) hT
    · intro m t0 hm
      exact le_trans (hsT m t0 ((fprune_eq_some _ _ _ _).mp hm).1) hT
    · intro w hw
      rcases hlink w hw with ⟨t0, hs, hle⟩ | hold
      · by_cases hp : t0 < now - 3600
        · right
          linarith
        · left
          exact ⟨t0, (fprune_eq_some _ _ _ _).mpr ⟨hs, hp⟩, hle⟩
      · right
        linarith
  · -- write branch
    next hdup =>
    have hnodup : ∀ t0,
        fprune st.sleep_command_sent (now - 3600) mac = some t0 →
        ¬ now - t0 < 10 := by
      intro t0 hm hc
      apply hdup
      rw [hm]
      exact decide_eq_true hc
    refine ⟨?_, ?_, ?_, ?_⟩
    · unfold WritesOk
      rw [List.pairwise_append]
      refine ⟨hpw, List.pairwise_singleton _ _, ?_⟩
      intro w hw w2 hw2
      simp only [List.mem_singleton] at hw2
      subst hw2
      intro hmac
      rcases hlink w hw with ⟨t0, hs, hle⟩ | hold
      · rw [hmac] at hs
        by_cases hp : t0 < now - 3600
        · have := hwT w hw
          simp only
          linarith
        · have hfp : fprune st.sleep_command_sent (now - 3600) mac =
              some t0 := (fprune_eq_some _ _ _ _).mpr ⟨hs, hp⟩
          have h10 := hnodup t0 hfp
          have ht0 := hsT mac t0 hs
          simp only
          linarith
      · simp only
        linarith
    · intro w hw
      rw [List.mem_append] at hw
      rcases hw with hw | hw
      · exact le_trans (hwT w hw) hT
      · simp only [List.mem_singleton] at hw
        subst hw
        simp
    · intro m t0 hm
      simp only at hm
      by_cases hm2 : m = mac
      · subst hm2
        rw [fset_self] at hm
        cases hm
        rfl
      · rw [fset_ne _ _ _ _ hm2] at hm
        exact le_trans (hsT m t0 ((fprune_eq_some _ _ _ _).mp hm).1) hT
    · intro w hw
      rw [List.mem_append] at hw
      rcases hw with hw | hw
      · by_cases hm2 : w.1 = mac
        · left
          refine ⟨now, ?_, le_trans (hwT w hw) hT⟩
          simp only
          rw [hm2, fset_self]
        · rcases hlink w hw with ⟨t0, hs, hle⟩ | hold
          · by_cases hp : t0 < now - 3600
            · right
              linarith
            · left
              refine ⟨t0, ?_, hle⟩
              simp only
              rw [fset_ne _ _ _ _ hm2]
              exact (fprune_eq_some _ _ _ _).mpr ⟨hs, hp⟩
          · right
            linarith
      · simp only [List.mem_singleton] at hw
        subst hw
        left
        exact ⟨now, fset_self _ _ _, le_refl _⟩

theorem chain_le_mono : ∀ (l : List SleepAttempt) (a : SleepAttempt),
    List.Chain' (fun x y => x.t ≤ y.t) (a :: l) → ∀ b ∈ l, a.t ≤ b.t := by
  intro l
  induction l with
  | nil =>
    intro a _ b hb
    cases hb
  | cons c t ih =>
    intro a hch b hb
    have hch2 := List.chain'_cons.mp hch
    rcases List.mem_cons.mp hb with hb | hb
    · subst hb
      exact hch2.1
    · exact le_trans hch2.1 (ih c hch2.2 b hb)

theorem run_sent_inv : ∀ (attempts : List SleepAttempt)
    (st : HandlerState) (T : ℚ), SentInv T st →
    (∀ a ∈ attempts, T ≤ a.t) →
    List.Chain' (fun x y => x.t ≤ y.t) attempts →
    ∃ T2, SentInv T2 (runSleepAttempts st attempts) := by
  intro attempts
  induction attempts with
  | nil =>
    intro st T hinv _ _
    exact ⟨T, hinv⟩
  | cons a as ih =>
    intro st T hinv hall hchain
    have hstep := send_inv_step st a.mac a.voltage a.t a.hour T hinv
      (hall a (by simp))
    have hall2 : ∀ b ∈ as, a.t ≤ b.t := chain_le_mono as a hchain
    have hchain2 : List.Chain' (fun x y => x.t ≤ y.t) as := by
      cases as with
      | nil => exact List.chain'_nil
      | cons b bs => exact (List.chain'_cons.mp hchain).2
    exact ih (send_sleep_command st a.mac a.voltage a.t a.hour) a.t hstep
      hall2 hchain2

/--
C6: the sleep-command dedup window.  First conjunct: if a sleep command
was sent to a SID within the last 10 seconds, a subsequent send attempt
for that SID writes nothing to the transport.  Second conjunct: along
any chronologically ordered sequence of send attempts starting from a
fresh handler, any two commands written for the same SID are at least
10 seconds apart.
-/
theorem c6_sleep_dedup :
    (∀ (st : HandlerState) (mac : String) (v now t0 : ℚ) (hour : Nat),
      st.sleep_command_sent mac = some t0 → now - t0 < 10 →
      (send_sleep_command st mac v now hour).writes = st.writes) ∧
    (∀ attempts : List SleepAttempt,
      List.Chain' (fun x y => x.t ≤ y.t) attempts →
      WritesOk (runSleepAttempts HandlerState.init attempts).writes) := by
  constructor
  · intro st mac v now t0 hour hs hlt
    have hfp : fprune st.sleep_command_sent (now - 3600) mac = some t0 :=
      (fprune_eq_some _ _ _ _).mpr ⟨hs, by linarith⟩
    unfold send_sleep_command
    simp only
    rw [if_pos (by rw [hfp]; exact decide_eq_true hlt)]
  · intro attempts hchain
    cases attempts with
    | nil => exact List.Pairwise.nil
    | cons a as =>
      obtain ⟨T2, hinv⟩ := run_sent_inv (a :: as) HandlerState.init a.t
        (sent_inv_init a.t)
        (by
          intro b hb
          rcases List.mem_cons.mp hb with hb | hb
          · subst hb
            exact le_refl _
          · exact chain_le_mono as a hchain b hb)
        hchain
      exact hinv.1

/-- Witness for C6: an attempt 5 seconds after a recorded send writes
nothing. -/
theorem c6_sleep_dedup_witness :
    (send_sleep_command
      ⟨ProcState.init, fun _ => none,
        fun k => if k = "aa:bb:cc:dd:ee:ff" then some 0 else none,
        fun _ => none, fun _ => none,
        [("aa:bb:cc:dd:ee:ff", 0, "x")]⟩
      "aa:bb:cc:dd:ee:ff" 50 5 10).writes =
      [("aa:bb:cc:dd:ee:ff", 0, "x")] :=
  c6_sleep_dedup.1 _ "aa:bb:cc:dd:ee:ff" 50 5 0 10 (by simp) (by norm_num)

/-! ### C8: scratch-blob total and the memory cap -/

/-- Sum of the sizes of the streaming processor's in-flight scratch
blobs. -/
def totalScratch (s : ProcState) : Nat :=
  (s.temp_files.map (fun p => p.2.length)).sum

/-- Feed n equal chunks for one MAC into a fresh streaming processor. -/
def pumpChunks (mac : String) (chunk : List Nat) : Nat → ProcState
  | 0 => ProcState.init
  | n + 1 => process_chunk (pumpChunks mac chunk n) mac chunk n 0

/-- Legacy ImageReceiver dict state (processors/image_processor.py). -/
structure ImageReceiver where
  image_buffers : List (String × List Nat)
  last_receive_time : List (String × ℚ)

/-- Sum of the legacy per-source buffer sizes. -/
def totalBufferSize (r : ImageReceiver) : Nat :=
  (r.image_buffers.map (fun p => p.2.length)).sum

/-- Python min over last_receive_time by value: the first key in
insertion order holding the minimal time. -/
def oldestBuffer : List (String × ℚ) → Option (String × ℚ)
  | [] => none
  | p :: t =>
    match oldestBuffer t with
    | none => some p
    | some q => if q.2 < p.2 then some q else some p

/-- _cleanup_buffer: drop both dict entries for the MAC. -/
def cleanup_buffer (r : ImageReceiver) (mac : String) : ImageReceiver :=
  ⟨ddel r.image_buffers mac, ddel r.last_receive_time mac⟩

/-- check_memory_usage: when the total exceeds MAX_BUFFER_SIZE, evict
the single source with the oldest last-receive time (once, with no
re-check). -/
def check_memory_usage (r : ImageReceiver) : ImageReceiver :=
  if config.MAX_BUFFER_SIZE < totalBufferSize r then
    match oldestBuffer r.last_receive_time with
    | some q => cleanup_buffer r q.1
    | none => r
  else r

theorem pump_shape (mac : String) (chunk : List Nat) :
    ∀ n, ∃ meta data,
      pumpChunks mac chunk (n + 1) = ⟨[(mac, meta)], [(mac, data)], []⟩ ∧
      data.length = (n + 1) * chunk.length := by
  intro n
  induction n with
  | zero =>
    refine ⟨⟨0, 1, chunk.length, 0, [0]⟩, chunk, ?_, by omega⟩
    show process_chunk ProcState.init mac chunk 0 0 = _
    simp [process_chunk, ProcState.init, start_image_stream, dget, dset,
      cleanup_stream, ddel, oldestStream]
  | succ m ih =>
    obtain ⟨meta, data, heq, hlen⟩ := ih
    refine ⟨{ meta with
        total_chunks_received := meta.total_chunks_received + 1,
        total_bytes_received := meta.total_bytes_received + chunk.length,
        last_chunk_time := 0,
        sequence_numbers := meta.sequence_numbers ++ [m + 1] },
      data ++ chunk, ?_, ?_⟩
    · show process_chunk (pumpChunks mac chunk (m + 1)) mac chunk (m + 1) 0 = _
      rw [heq]
      simp [process_chunk, dget, dset]
    · rw [List.length_append, hlen]
      ring

/-- C8 counterexample: 20481 chunks of 512 bytes drive the streaming
scratch total to 10486272 bytes, past the 10 MiB cap, with no
eviction. -/
theorem c8_counterexample :
    config.MAX_BUFFER_SIZE <
      totalScratch (pumpChunks "aa" (List.replicate 512 0) 20481) := by
  obtain ⟨meta, data, heq, hlen⟩ :=
    pump_shape "aa" (List.replicate 512 0) 20480
  have h1 : (20481 : Nat) = 20480 + 1 := rfl
  rw [h1, heq]
  unfold totalScratch
  simp only [List.map_cons, List.map_nil, List.sum_cons, List.sum_nil]
  rw [hlen]
  have h2 : (List.replicate 512 (0 : Nat)).length = 512 := by
    rw [List.length_replicate]
  rw [h2]
  have h3 : config.MAX_BUFFER_SIZE = 10485760 := rfl
  rw [h3]
  norm_num

theorem sum_dset_length (l : List (String × List Nat)) (k : String)
    (v : List Nat) :
    ((dset l k v).map (fun p => p.2.length)).sum +
      ((dget l k).getD []).length =
    (l.map (fun p => p.2.length)).sum + v.length := by
  induction l with
  | nil => simp [dset, dget]
  | cons p t ih =>
    by_cases hc : p.1 = k
    · simp [dset, dget, hc]
      omega
    · simp [dset, dget, hc] at ih ⊢
      omega

theorem process_chunk_scratch (s : ProcState) (mac : String)
    (chunk : List Nat) (sq : Nat) (now : ℚ)
    (meta : StreamingImageMetadata)
    (hm : dget s.active_streams mac = some meta) :
    totalScratch (process_chunk s mac chunk sq now) =
      totalScratch s + chunk.length := by
  unfold process_chunk
  simp only [hm, Option.isNone_some, Bool.false_eq_true, if_false]
  unfold totalScratch
  simp only
  have h := sum_dset_length s.temp_files mac
    ((dget s.temp_files mac).getD [] ++ chunk)
  rw [List.length_append] at h
  omega

theorem oldestBuffer_min : ∀ (l : List (String × ℚ)) (q : String × ℚ),
    oldestBuffer l = some q → q ∈ l ∧ ∀ p ∈ l, q.2 ≤ p.2 := by
  intro l
  induction l with
  | nil =>
    intro q h
    cases h
  | cons p t ih =>
    intro q h
    unfold oldestBuffer at h
    cases ht : oldestBuffer t with
    | none =>
      rw [ht] at h
      simp only at h
      cases h
      have htnil : t = [] := by
        cases t with
        | nil => rfl
        | cons a b =>
          exfalso
          unfold oldestBuffer at ht
          rcases hob : oldestBuffer b with _ | r
          · rw [hob] at ht
            cases ht
          · rw [hob] at ht
            simp only at ht
            split_ifs at ht
      subst htnil
      refine ⟨List.mem_cons_self _ _, ?_⟩
      intro p2 hp2
      rcases List.mem_cons.mp hp2 with h2 | h2
      · subst h2
        exact le_refl _
      · cases h2
    | some r =>
      rw [ht] at h
      simp only at h
      obtain ⟨hr, hrall⟩ := ih r ht
      by_cases hc : r.2 < p.2
      · rw [if_pos hc] at h
        cases h
        refine ⟨List.mem_cons_of_mem _ hr, ?_⟩
        intro p2 hp2
        rcases List.mem_cons.mp hp2 with h2 | h2
        · subst h2
          exact le_of_lt hc
        · exact hrall p2 h2
      · rw [if_neg hc] at h
        cases h
        refine ⟨List.mem_cons_self _ _, ?_⟩
        intro p2 hp2
        rcases List.mem_cons.mp hp2 with h2 | h2
        · subst h2
          exact le_refl _
        · exact le_trans (le_of_not_lt hc) (hrall p2 h2)

theorem check_memory_noop (r : ImageReceiver)
    (h : totalBufferSize r ≤ config.MAX_BUFFER_SIZE) :
    check_memory_usage r = r := by
  unfold check_memory_usage
  rw [if_neg (not_lt.mpr h)]

theorem check_memory_evict (r : ImageReceiver) (q : String × ℚ)
    (h : config.MAX_BUFFER_SIZE < totalBufferSize r)
    (hq : oldestBuffer r.last_receive_time = some q) :
    check_memory_usage r = cleanup_buffer r q.1 ∧
      q ∈ r.last_receive_time ∧ ∀ p ∈ r.last_receive_time, q.2 ≤ p.2 := by
  obtain ⟨hmem, hmin⟩ := oldestBuffer_min _ q hq
  refine ⟨?_, hmem, hmin⟩
  unfold check_memory_usage
  rw [if_pos h, hq]

/--
C8: how the memory cap is actually enforced.  First conjunct: the
streaming processor's process_chunk grows the scratch total by exactly
the chunk size whenever a stream is active — it never evicts, so the
10 MiB cap is not an invariant of the streaming path.  Second and third
conjuncts: the legacy ImageReceiver.check_memory_usage is a no-op at or
below MAX_BUFFER_SIZE, and above it evicts exactly one source — the
first in insertion order with the minimal last-receive time — with no
re-check that the total is back under the cap.
-/
theorem c8_scratch_cap_not_enforced :
    (∀ (s : ProcState) (mac : String) (chunk : List Nat) (sq : Nat)
        (now : ℚ) (meta : StreamingImageMetadata),
      dget s.active_streams mac = some meta →
      totalScratch (process_chunk s mac chunk sq now) =
        totalScratch s + chunk.length) ∧
    (∀ r : ImageReceiver, totalBufferSize r ≤ config.MAX_BUFFER_SIZE →
      check_memory_usage r = r) ∧
    (∀ (r : ImageReceiver) (q : String × ℚ),
      config.MAX_BUFFER_SIZE < totalBufferSize r →
      oldestBuffer r.last_receive_time = some q →
      check_memory_usage r = cleanup_buffer r q.1 ∧
        q ∈ r.last_receive_time ∧ ∀ p ∈ r.last_receive_time, q.2 ≤ p.2) :=
  ⟨process_chunk_scratch, check_memory_noop, check_memory_evict⟩

/-- Witness for C8: a two-byte chunk on a three-byte scratch blob gives
a five-byte total. -/
theorem c8_scratch_cap_not_enforced_witness :
    totalScratch (process_chunk
      ⟨[("m", ⟨0, 1, 3, 0, [0]⟩)], [("m", [1, 2, 3])], []⟩
      "m" [9, 9] 1 0) =
    totalScratch ⟨[("m", ⟨0, 1, 3, 0, [0]⟩)], [("m", [1, 2, 3])], []⟩ + 2 :=
  c8_scratch_cap_not_enforced.1 _ "m" [9, 9] 1 0 ⟨0, 1, 3, 0, [0]⟩
    (by decide)

/-! ### C9: finalize-time validation of the assembled blob -/

theorem dget_cons_self {α : Type} (k : String) (v : α)
    (t : List (String × α)) : dget ((k, v) :: t) k = some v := by
  unfold dget
  rw [List.find?_cons_of_pos _ (by simp)]
  rfl

/-- C9 counterexample: the streaming finalizer saves a 1000-byte blob
that does not begin with the JPEG magic head FF D8. -/
theorem c9_counterexample :
    (finalize_image_stream
      ⟨[("m", ⟨0, 1, 1000, 0, [0]⟩)], [("m", List.replicate 1000 7)], []⟩
      "m").2 = some (List.replicate 1000 7) := by
  unfold finalize_image_stream
  simp only [dget_cons_self, Option.isNone_some, Bool.false_eq_true,
    if_false]
  rw [if_neg (by rw [List.length_replicate]; norm_num)]

/-- Legacy SerialProtocol buffer state (protocol/serial_handler.py):
in-memory per-source byte buffers and the image sink. -/
structure LegacyState where
  image_buffers : List (String × List Nat)
  saved_images : List (String × List Nat)

/-- _process_eof_frame (validation and save; the sleep-command emission
afterwards is unconditional and modelled with the handler state).  The
Bool records whether the blob was handed to save_image.  The JPEG
footer check only logs, so it has no state effect. -/
def process_eof_frame (is_test : Bool) (s : LegacyState) (mac : String) :
    LegacyState × Bool :=
  match dget s.image_buffers mac with
  | none => (s, false)
  | some data =>
    if is_test = false then
      if data.length < 1000 then
        ({ s with image_buffers := ddel s.image_buffers mac }, false)
      else if data.take 2 ≠ [255, 216] then
        ({ s with image_buffers := ddel s.image_buffers mac }, false)
      else
        ({ s with
            image_buffers := ddel s.image_buffers mac,
            saved_images := s.saved_images ++ [(mac, data)] }, true)
    else
      ({ s with
          image_buffers := ddel s.image_buffers mac,
          saved_images := s.saved_images ++ [(mac, data)] }, true)

theorem finalize_accepts_iff (s : ProcState) (mac : String)
    (data : List Nat) :
    (finalize_image_stream s mac).2 = some data ↔
      (dget s.active_streams mac).isSome = true ∧
      dget s.temp_files mac = some data ∧ 1000 ≤ data.length := by
  unfold finalize_image_stream
  cases ha : dget s.active_streams mac with
  | none => simp
  | some meta =>
    simp only [Option.isNone_some, Bool.false_eq_true, if_false,
      Option.isSome_some, true_and]
    cases hf : dget s.temp_files mac with
    | none => simp
    | some d =>
      simp only
      by_cases hl : d.length < 1000
      · rw [if_pos hl]
        simp only
        constructor
        · intro hx
          exact absurd hx (by simp)
        · rintro ⟨h1, h2⟩
          cases h1
          exact absurd h2 (not_le.mpr hl)
      · rw [if_neg hl]
        simp only
        constructor
        · intro hx
          simp only [Option.some.injEq] at hx
          subst hx
          exact ⟨rfl, by omega⟩
        · rintro ⟨h1, _⟩
          cases h1
          rfl

theorem process_eof_saves_iff (is_test : Bool) (s : LegacyState)
    (mac : String) (data : List Nat)
    (h : dget s.image_buffers mac = some data) :
    (process_eof_frame is_test s mac).2 = true ↔
      is_test = true ∨ (1000 ≤ data.length ∧ data.take 2 = [255, 216]) := by
  unfold process_eof_frame
  rw [h]
  simp only
  cases is_test with
  | false =>
    rw [if_pos rfl]
    by_cases hl : data.length < 1000
    · rw [if_pos hl]
      constructor
      · intro hx
        exact absurd hx (by simp)
      · rintro (hx | ⟨hx1, hx2⟩)
        · cases hx
        · exact absurd hx1 (not_le.mpr hl)
    · rw [if_neg hl]
      by_cases hh : data.take 2 = [255, 216]
      · rw [if_neg (by simpa using hh)]
        constructor
        · intro _
          exact Or.inr ⟨by omega, hh⟩
        · intro _
          rfl
      · rw [if_pos hh]
        constructor
        · intro hx
          exact absurd hx (by simp)
        · rintro (hx | ⟨hx1, hx2⟩)
          · cases hx
          · exact absurd hx2 hh
  | true =>
    rw [if_neg (by simp)]
    simp

/--
C9: what finalize-time validation actually checks.  First conjunct: the
streaming finalizer hands a blob to the image sink exactly when a
stream is active, the scratch file exists, and it holds at least 1000
bytes — the JPEG magic head is never inspected and there is no test
mode on this path.  Second conjunct: only the legacy
SerialProtocol._process_eof_frame implements the claimed policy — with
a buffer present it saves exactly when in test mode, or when the blob
has at least 1000 bytes and starts with FF D8; the footer is never a
reason to reject.
-/
theorem c9_finalize_validation :
    (∀ (s : ProcState) (mac : String) (data : List Nat),
      (finalize_image_stream s mac).2 = some data ↔
        (dget s.active_streams mac).isSome = true ∧
        dget s.temp_files mac = some data ∧ 1000 ≤ data.length) ∧
    (∀ (is_test : Bool) (s : LegacyState) (mac : String)
        (data : List Nat), dget s.image_buffers mac = some data →
      ((process_eof_frame is_test s mac).2 = true ↔
        is_test = true ∨
          (1000 ≤ data.length ∧ data.take 2 = [255, 216]))) :=
  ⟨finalize_accepts_iff, process_eof_saves_iff⟩

/-- Witness for C9: in test mode a one-byte buffer is still saved. -/
theorem c9_finalize_validation_witness :
    (process_eof_frame true ⟨[("m", [1])], []⟩ "m").2 = true :=
  (c9_finalize_validation.2 true ⟨[("m", [1])], []⟩ "m" [1]
    (by decide)).mpr (Or.inl rfl)

end FarmVerse
